import Mathlib

/-!
Verification of the Buddhabrot renderer core: a shallow embedding of the
morphological edge selector, the orbit sampler, the aggregator and the
colormap lookup, with theorems settling the specified properties.

Real arithmetic of the C++ code (`float` / `double`) is embedded over `ℚ`
with exact operations; machine integers are embedded as `ℕ` / `ℤ`.
-/

/-- Complex numbers over `ℚ`, embedding `std::complex<float>` / `std::complex<double>`. -/
structure QC where
  re : ℚ
  im : ℚ
deriving DecidableEq

namespace QC

/-- Complex addition. -/
def add (a b : QC) : QC := ⟨a.re + b.re, a.im + b.im⟩

/-- Complex multiplication. -/
def mul (a b : QC) : QC := ⟨a.re * b.re - a.im * b.im, a.re * b.im + a.im * b.re⟩

/-- `std::norm`: the squared magnitude. -/
def normSq (a : QC) : ℚ := a.re * a.re + a.im * a.im

/-- The zero complex value, `std::complex<T> z {}`. -/
def zero : QC := ⟨0, 0⟩

end QC

/-- `std::lerp(a, b, t) = a + t * (b - a)`. -/
def std_lerp (a b t : ℚ) : ℚ := a + t * (b - a)

/-- `std::clamp(v, lo, hi)`. -/
def std_clamp (v lo hi : ℚ) : ℚ := if v < lo then lo else if hi < v then hi else v

/-- `remap` from `cmap.h`: affine remap of `[from_lo, from_hi]` onto
`[to_lo, to_hi]` with the interpolation parameter clamped to `[0, 1]`. -/
def remap (from_lo from_hi to_lo to_hi v : ℚ) : ℚ :=
  std_lerp to_lo to_hi (std_clamp ((v - from_lo) / (from_hi - from_lo)) 0 1)

/-- `static_cast<std::int64_t>` on a nonnegative-or-not rational: truncation
toward zero. -/
def trunc_cast (q : ℚ) : ℤ := if 0 ≤ q then ⌊q⌋ else -⌊-q⌋

/-- The flat-index bounds test of `im_edge` / `im_dilate`:
`idx >= 0 && idx < im.size()`. -/
def in_bounds (len : ℕ) (idx : ℤ) : Bool := decide (0 ≤ idx ∧ idx < (len : ℤ))

/-- `im_edge`: result cell `i` is true iff `im[i]` is true and some flat
neighbour at offset `-size, -1, 1, size` is within the flat bounds and false. -/
def im_edge (im : List Bool) (size : ℤ) : List Bool :=
  let deltas : List ℤ := [-size, -1, 1, size]
  (List.range im.length).map (fun i =>
    im.getD i false &&
      deltas.any (fun d =>
        in_bounds im.length ((i : ℤ) + d) && !(im.getD ((i : ℤ) + d).toNat false)))

/-- `im_invert`: pointwise boolean negation. -/
def im_invert (im : List Bool) : List Bool := im.map (fun v => !v)

/-- `im_or`: pointwise disjunction (over the length of the first image). -/
def im_or (im1 im2 : List Bool) : List Bool := List.zipWith (fun v1 v2 => v1 || v2) im1 im2

/-- `im_dilate`: result cell `i` is true iff some flat neighbour at offset
`-size, -1, 0, 1, size` is within the flat bounds and true. -/
def im_dilate (im : List Bool) (size : ℤ) : List Bool :=
  let deltas : List ℤ := [-size, -1, 0, 1, size]
  (List.range im.length).map (fun i =>
    deltas.any (fun d =>
      in_bounds im.length ((i : ℤ) + d) && im.getD ((i : ℤ) + d).toNat false))

/-- The 4-connected edge operator as the specification words it: cell
`(x, y)` is true iff the input is true there and at least one of its
up/down/left/right *grid* neighbours (out-of-bounds treated as absent,
horizontal neighbours staying within the row) is false. -/
def edge_claim (im : List Bool) (size : ℕ) : List Bool :=
  (List.range im.length).map (fun i =>
    let x := i % size
    let y := i / size
    im.getD i false &&
      ((decide (0 < y) && !(im.getD ((y - 1) * size + x) false)) ||
       (decide (y + 1 < size) && !(im.getD ((y + 1) * size + x) false)) ||
       (decide (0 < x) && !(im.getD (y * size + (x - 1)) false)) ||
       (decide (x + 1 < size) && !(im.getD (y * size + x + 1) false))))

/-- The edge operator `im_edge` actually computes: the vertical neighbour
tests are grid-aware, but the horizontal tests use the flat predecessor and
successor indices, which wrap across row boundaries. -/
def edge_flat (im : List Bool) (size : ℕ) : List Bool :=
  (List.range im.length).map (fun i =>
    im.getD i false &&
      ((decide (size ≤ i) && !(im.getD (i - size) false)) ||
       (decide (0 < i) && !(im.getD (i - 1) false)) ||
       (decide (i + 1 < im.length) && !(im.getD (i + 1) false)) ||
       (decide (i + size < im.length) && !(im.getD (i + size) false))))

section EdgeTheorems

/-- Clause-by-clause bridge for the `-size` delta of `im_edge`. -/
theorem im_edge_up_clause (im : List Bool) (s i : ℕ) (hi : i < im.length) :
    (in_bounds im.length ((i : ℤ) + -(s : ℤ)) &&
      !(im.getD ((i : ℤ) + -(s : ℤ)).toNat false)) =
    (decide (s ≤ i) && !(im.getD (i - s) false)) := by
  unfold in_bounds
  rw [show ((i : ℤ) + -(s : ℤ)).toNat = i - s by omega]
  refine congrArg₂ (· && ·) ?_ rfl
  rw [decide_eq_decide]
  omega

/-- Clause-by-clause bridge for the `-1` delta of `im_edge`. -/
theorem im_edge_left_clause (im : List Bool) (i : ℕ) (hi : i < im.length) :
    (in_bounds im.length ((i : ℤ) + -1) && !(im.getD ((i : ℤ) + -1).toNat false)) =
    (decide (0 < i) && !(im.getD (i - 1) false)) := by
  unfold in_bounds
  rw [show ((i : ℤ) + -1).toNat = i - 1 by omega]
  refine congrArg₂ (· && ·) ?_ rfl
  rw [decide_eq_decide]
  omega

/-- Clause-by-clause bridge for the `+1` delta of `im_edge`. -/
theorem im_edge_right_clause (im : List Bool) (i : ℕ) :
    (in_bounds im.length ((i : ℤ) + 1) && !(im.getD ((i : ℤ) + 1).toNat false)) =
    (decide (i + 1 < im.length) && !(im.getD (i + 1) false)) := by
  unfold in_bounds
  rw [show ((i : ℤ) + 1).toNat = i + 1 by omega]
  refine congrArg₂ (· && ·) ?_ rfl
  rw [decide_eq_decide]
  omega

/-- Clause-by-clause bridge for the `+size` delta of `im_edge`. -/
theorem im_edge_down_clause (im : List Bool) (s i : ℕ) :
    (in_bounds im.length ((i : ℤ) + (s : ℤ)) && !(im.getD ((i : ℤ) + (s : ℤ)).toNat false)) =
    (decide (i + s < im.length) && !(im.getD (i + s) false)) := by
  unfold in_bounds
  rw [show ((i : ℤ) + (s : ℤ)).toNat = i + s by omega]
  refine congrArg₂ (· && ·) ?_ rfl
  rw [decide_eq_decide]
  omega

/-- C1 (amended): `im_edge` marks cell `i` true iff the input is true at `i`
and at least one in-bounds flat neighbour at offset `-S`, `-1`, `+1`, `+S` is
false; the horizontal offsets are flat-index ones and so wrap across row
boundaries. -/
theorem im_edge_eq_edge_flat (im : List Bool) (s : ℕ) :
    im_edge im (s : ℤ) = edge_flat im s := by
  unfold im_edge edge_flat
  refine List.map_congr_left (fun i hi => ?_)
  rw [List.mem_range] at hi
  simp only [List.any_cons, List.any_nil, Bool.or_false]
  rw [im_edge_up_clause im s i hi, im_edge_left_clause im i hi,
    im_edge_right_clause im i, im_edge_down_clause im s i]
  simp only [Bool.or_assoc]

/-- C1 counterexample: on the 2×2 bitmap `[T, T; F, T]`, `im_edge` marks the
cell `(x, y) = (1, 0)` true because its flat successor index 2 (the first cell
of the *next* row) holds false, while all its genuine in-grid 4-connected
neighbours are true, so the claimed 4-connected characterisation marks it
false. -/
theorem im_edge_claim_cex :
    (im_edge [true, true, false, true] (2 : ℤ)).getD 1 false = true ∧
    (edge_claim [true, true, false, true] 2).getD 1 false = false ∧
    im_edge [true, true, false, true] (2 : ℤ) ≠ edge_claim [true, true, false, true] 2 := by
  refine ⟨by decide, by decide, ?_⟩
  decide

end EdgeTheorems

/-- `good_points.size() - 1` and `size - 1` as the C++ code computes them: in
unsigned 64-bit arithmetic, wrapping at zero. -/
def u64_pred (n : ℕ) : ℕ := (n + 2 ^ 64 - 1) % 2 ^ 64

/-- `im_collect_points`: scan the bitmap row-major and return, for every true
cell `(x, y)`, the complex point `(lerp(-2, 2, x / S), lerp(-2, 2, y / S))`. -/
def im_collect_points (im : List Bool) (size : ℕ) : List (ℚ × ℚ) :=
  (List.range size).flatMap (fun y =>
    (List.range size).filterMap (fun x =>
      if im.getD (y * size + x) false then
        some (std_lerp (-2) 2 ((x : ℚ) / (size : ℚ)), std_lerp (-2) 2 ((y : ℚ) / (size : ℚ)))
      else none))

/-- The index computation of `BuddhabrotThread::sample` lines 160-161:
`remap` from `[-2, 2]` onto `[0, size - 1]` followed by the
`static_cast<std::int64_t>` truncation. -/
def sample_remap_index (size : ℕ) (v : ℚ) : ℤ :=
  trunc_cast (remap (-2) 2 0 ((u64_pred size : ℕ) : ℚ) v)

theorem u64_pred_eq (n : ℕ) (h1 : 1 ≤ n) (h2 : n < 2 ^ 64) : u64_pred n = n - 1 := by
  unfold u64_pred
  omega

theorem std_clamp_unit_mem (v : ℚ) : 0 ≤ std_clamp v 0 1 ∧ std_clamp v 0 1 ≤ 1 := by
  unfold std_clamp
  split_ifs with h1 h2
  · norm_num
  · norm_num
  · constructor <;> linarith

theorem std_clamp_of_mem (v : ℚ) (h0 : 0 ≤ v) (h1 : v ≤ 1) : std_clamp v 0 1 = v := by
  unfold std_clamp
  split_ifs with hlt hgt
  · linarith
  · linarith
  · rfl

/-- Round-trip arithmetic: a collected point coordinate `lerp(-2, 2, x / S)`
fed through the sampler's inverse remap and truncation yields grid index
`x - 1` (truncated at zero), not `x`. -/
theorem sample_remap_index_of_collected (size x : ℕ) (hx : x < size) (hw : size < 2 ^ 64) :
    sample_remap_index size (std_lerp (-2) 2 ((x : ℚ) / (size : ℚ))) = ((x - 1 : ℕ) : ℤ) := by
  have hs : 1 ≤ size := Nat.one_le_iff_ne_zero.mpr (by omega)
  have hsq : (0 : ℚ) < (size : ℚ) := by exact_mod_cast Nat.pos_of_ne_zero (by omega)
  have ht0 : (0 : ℚ) ≤ (x : ℚ) / (size : ℚ) := by positivity
  have ht1 : (x : ℚ) / (size : ℚ) < 1 := by
    rw [div_lt_one hsq]
    exact_mod_cast hx
  unfold sample_remap_index remap
  rw [u64_pred_eq size hs hw]
  have harg : (std_lerp (-2) 2 ((x : ℚ) / (size : ℚ)) - -2) / (2 - -2) = (x : ℚ) / (size : ℚ) := by
    unfold std_lerp
    ring
  rw [harg, std_clamp_of_mem _ ht0 (le_of_lt ht1)]
  have hcast : ((size - 1 : ℕ) : ℚ) = (size : ℚ) - 1 := by
    push_cast [hs]
    ring
  have hval : std_lerp 0 ((size - 1 : ℕ) : ℚ) ((x : ℚ) / (size : ℚ))
      = (x : ℚ) / (size : ℚ) * ((size : ℚ) - 1) := by
    unfold std_lerp
    rw [hcast]
    ring
  rw [hval]
  have hnn : (0 : ℚ) ≤ (x : ℚ) / (size : ℚ) * ((size : ℚ) - 1) := by
    have : (1 : ℚ) ≤ (size : ℚ) := by exact_mod_cast hs
    have h1 : (0 : ℚ) ≤ (size : ℚ) - 1 := by linarith
    positivity
  unfold trunc_cast
  rw [if_pos hnn]
  rcases Nat.eq_zero_or_pos x with hx0 | hxpos
  · subst hx0
    norm_num
  · have hkey : (x : ℚ) / (size : ℚ) * ((size : ℚ) - 1) = (x : ℚ) - (x : ℚ) / (size : ℚ) := by
      field_simp
      ring
    have hxq : (0 : ℚ) < (x : ℚ) / (size : ℚ) := by
      apply div_pos _ hsq
      exact_mod_cast hxpos
    have hle : (x : ℚ) / (size : ℚ) ≤ 1 := le_of_lt ht1
    have hfl : ⌊(x : ℚ) / (size : ℚ) * ((size : ℚ) - 1)⌋ = (x : ℤ) - 1 := by
      rw [Int.floor_eq_iff]
      constructor
      · push_cast
        rw [hkey]
        linarith
      · push_cast
        rw [hkey]
        linarith
    rw [hfl]
    omega

/-- Every point returned by `im_collect_points` originates from a true cell
`(x, y)` of the bitmap, carrying the coordinates `lerp(-2, 2, ·/S)` of that
cell. -/
theorem im_collect_points_mem (im : List Bool) (size : ℕ) (p : ℚ × ℚ)
    (hp : p ∈ im_collect_points im size) :
    ∃ x y : ℕ, x < size ∧ y < size ∧
      p.1 = std_lerp (-2) 2 ((x : ℚ) / (size : ℚ)) ∧
      p.2 = std_lerp (-2) 2 ((y : ℚ) / (size : ℚ)) ∧
      im.getD (y * size + x) false = true := by
  unfold im_collect_points at hp
  rw [List.mem_flatMap] at hp
  obtain ⟨y, hy, hmem⟩ := hp
  rw [List.mem_range] at hy
  rw [List.mem_filterMap] at hmem
  obtain ⟨x, hx, hfx⟩ := hmem
  rw [List.mem_range] at hx
  cases him : im.getD (y * size + x) false with
  | false => rw [him] at hfx; simp at hfx
  | true =>
    rw [him] at hfx
    simp only [if_true] at hfx
    cases hfx
    exact ⟨x, y, hx, hy, rfl, rfl, him⟩

/-- C3 (amended): every point returned by the good-point collection comes from
a true cell `(x, y)` of the selector's bitmap, but remapping it back through
the sampler's inverse remap and integer truncation yields the cell
`(x - 1, y - 1)` (truncated at zero), which need not be true. -/
theorem im_collect_points_roundtrip (im : List Bool) (size : ℕ) (hw : size < 2 ^ 64)
    (p : ℚ × ℚ) (hp : p ∈ im_collect_points im size) :
    ∃ x y : ℕ, x < size ∧ y < size ∧
      im.getD (y * size + x) false = true ∧
      sample_remap_index size p.1 = ((x - 1 : ℕ) : ℤ) ∧
      sample_remap_index size p.2 = ((y - 1 : ℕ) : ℤ) := by
  obtain ⟨x, y, hx, hy, h1, h2, him⟩ := im_collect_points_mem im size p hp
  refine ⟨x, y, hx, hy, him, ?_, ?_⟩
  · rw [h1]
    exact sample_remap_index_of_collected size x hx hw
  · rw [h2]
    exact sample_remap_index_of_collected size y hy hw

/-- Witness for C3 (amended) on the 1×1 all-true bitmap. -/
theorem im_collect_points_roundtrip_witness :
    ∃ x y : ℕ, x < 1 ∧ y < 1 ∧
      ([true] : List Bool).getD (y * 1 + x) false = true ∧
      sample_remap_index 1 (((-2 : ℚ), (-2 : ℚ)) : ℚ × ℚ).1 = ((x - 1 : ℕ) : ℤ) ∧
      sample_remap_index 1 (((-2 : ℚ), (-2 : ℚ)) : ℚ × ℚ).2 = ((y - 1 : ℕ) : ℤ) := by
  refine im_collect_points_roundtrip [true] 1 (by norm_num) ((-2 : ℚ), (-2 : ℚ)) ?_
  norm_num [im_collect_points, std_lerp]

/-- C3 counterexample: on the 2×2 bitmap with exactly cell `(1, 0)` true, the
collected point is `(0, -2)`, and the sampler's inverse remap sends it to cell
`(0, 0)` — a cell that is false in the selector's bitmap. -/
theorem im_collect_points_roundtrip_cex :
    ((0 : ℚ), (-2 : ℚ)) ∈ im_collect_points [false, true, false, false] 2 ∧
    sample_remap_index 2 0 = 0 ∧
    sample_remap_index 2 (-2) = 0 ∧
    ([false, true, false, false] : List Bool).getD (0 * 2 + 0) false = false := by
  refine ⟨?_, ?_, ?_, by norm_num⟩
  · norm_num [im_collect_points, std_lerp, List.range_succ]
  · have h := sample_remap_index_of_collected 2 1 (by norm_num) (by norm_num)
    norm_num [std_lerp] at h
    exact h
  · have h := sample_remap_index_of_collected 2 0 (by norm_num) (by norm_num)
    norm_num [std_lerp] at h
    exact h

/-- The orbit loop of `BuddhabrotThread::sample` lines 143-149: from `z = 0`,
iterate `z ← z² + c` while the iteration count stays below `max_iter` and
`|z|² < 8`, recording every computed `z`; returns the recorded trajectory and
the final `z`. -/
def orbit_loop (c : QC) : ℕ → QC → List QC × QC
  | 0, z => ([], z)
  | n + 1, z =>
    if z.normSq < 8 then
      let z2 := (z.mul z).add c
      let r := orbit_loop c n z2
      (z2 :: r.1, r.2)
    else ([], z)

/-- `counts[i]++`. -/
def incr_at (counts : List ℕ) (i : ℕ) : List ℕ := counts.set i (counts.getD i 0 + 1)

/-- The per-visit histogram update of `BuddhabrotThread::sample` lines
155-165: skip the orbit point if either coordinate lies outside `[-2, 2]`,
otherwise remap it to grid indices `(x, y)` and increment both
`counts[y*size + x]` and the vertical mirror `counts[(size-y-1)*size + x]`. -/
def record_point (size : ℕ) (counts : List ℕ) (z : QC) : List ℕ :=
  if 2 < |z.re| ∨ 2 < |z.im| then counts
  else
    let x : ℤ := sample_remap_index size z.re
    let y : ℤ := sample_remap_index size z.im
    incr_at (incr_at counts (y * (size : ℤ) + x).toNat)
      (((size : ℤ) - y - 1) * (size : ℤ) + x).toNat

/-- One full sample of `BuddhabrotThread::sample` lines 143-165 for a start
point `c`: run the orbit loop, discard the trajectory when the final `|z|²`
is below 4, otherwise record every trajectory point. -/
def process_sample (size max_iter : ℕ) (counts : List ℕ) (c : QC) : List ℕ :=
  let r := orbit_loop c max_iter QC.zero
  if r.2.normSq < 4 then counts
  else r.1.foldl (record_point size) counts

section SamplerLemmas

theorem incr_at_length (l : List ℕ) (i : ℕ) : (incr_at l i).length = l.length := by
  unfold incr_at
  exact List.length_set l i _

theorem incr_at_getD_self (l : List ℕ) (i : ℕ) (h : i < l.length) :
    (incr_at l i).getD i 0 = l.getD i 0 + 1 := by
  unfold incr_at
  simp [List.getD, List.getElem?_set_self, h]

theorem incr_at_getD_ne (l : List ℕ) (i j : ℕ) (h : j ≠ i) :
    (incr_at l i).getD j 0 = l.getD j 0 := by
  unfold incr_at
  simp [List.getD, List.getElem?_set_ne (Ne.symm h)]

theorem record_point_length (size : ℕ) (counts : List ℕ) (z : QC) :
    (record_point size counts z).length = counts.length := by
  unfold record_point
  split
  · rfl
  · rw [incr_at_length, incr_at_length]

theorem foldl_record_point_length (size : ℕ) (pts : List QC) (counts : List ℕ) :
    (pts.foldl (record_point size) counts).length = counts.length := by
  induction pts generalizing counts with
  | nil => rfl
  | cons p rest ih => rw [List.foldl_cons, ih, record_point_length]

theorem process_sample_length (size max_iter : ℕ) (counts : List ℕ) (c : QC) :
    (process_sample size max_iter counts c).length = counts.length := by
  unfold process_sample
  dsimp only
  split
  · rfl
  · exact foldl_record_point_length size _ counts

end SamplerLemmas

/-- C5: a sample whose orbit exits the loop with `|z|² < 4` (a non-escaping
orbit) leaves the histogram unchanged: no cell receives any increment. -/
theorem non_escaping_sample_no_effect (size max_iter : ℕ) (counts : List ℕ) (c : QC)
    (h : (orbit_loop c max_iter QC.zero).2.normSq < 4) :
    process_sample size max_iter counts c = counts ∧
    ∀ j : ℕ, (process_sample size max_iter counts c).getD j 0 = counts.getD j 0 := by
  unfold process_sample
  dsimp only
  rw [if_pos h]
  exact ⟨rfl, fun j => rfl⟩

/-- Witness for C5: the orbit of `c = 0` never escapes, and processing it
leaves the histogram `[0]` unchanged. -/
theorem non_escaping_sample_no_effect_witness :
    process_sample 1 1 [0] ⟨0, 0⟩ = [0] ∧
    ∀ j : ℕ, (process_sample 1 1 [0] ⟨0, 0⟩).getD j 0 = ([0] : List ℕ).getD j 0 := by
  refine non_escaping_sample_no_effect 1 1 [0] ⟨0, 0⟩ ?_
  norm_num [orbit_loop, QC.normSq, QC.mul, QC.add, QC.zero]

/-- The sampler's remapped index always lands in `[0, size)`: the clamp inside
`remap` confines the interpolation parameter to `[0, 1]`. -/
theorem sample_remap_index_bounds (size : ℕ) (v : ℚ) (h1 : 1 ≤ size) (h2 : size < 2 ^ 64) :
    0 ≤ sample_remap_index size v ∧ sample_remap_index size v < (size : ℤ) := by
  unfold sample_remap_index remap
  rw [u64_pred_eq size h1 h2]
  obtain ⟨ht0, ht1⟩ := std_clamp_unit_mem ((v - -2) / (2 - -2))
  set t := std_clamp ((v - -2) / (2 - -2)) 0 1 with ht
  have hcast : ((size - 1 : ℕ) : ℚ) = (size : ℚ) - 1 := by
    push_cast [h1]
    ring
  have hub : (0 : ℚ) ≤ (size : ℚ) - 1 := by
    have : (1 : ℚ) ≤ (size : ℚ) := by exact_mod_cast h1
    linarith
  have hval : std_lerp 0 ((size - 1 : ℕ) : ℚ) t = t * ((size : ℚ) - 1) := by
    unfold std_lerp
    rw [hcast]
    ring
  rw [hval]
  have hnn : (0 : ℚ) ≤ t * ((size : ℚ) - 1) := mul_nonneg ht0 hub
  unfold trunc_cast
  rw [if_pos hnn]
  constructor
  · exact Int.floor_nonneg.mpr hnn
  · rw [Int.floor_lt]
    have hle : t * ((size : ℚ) - 1) ≤ (size : ℚ) - 1 := mul_le_of_le_one_left hub ht1
    push_cast
    linarith

/-- For an in-range orbit point, `record_point` is the double increment at the
flat indices `y*size + x` and `(size-1-y)*size + x` of the remapped grid cell
and its vertical mirror. -/
theorem record_point_indices (size : ℕ) (counts : List ℕ) (z : QC)
    (hin : ¬(2 < |z.re| ∨ 2 < |z.im|)) (h1 : 1 ≤ size) (hw : size < 2 ^ 64) :
    record_point size counts z
      = incr_at (incr_at counts
          ((sample_remap_index size z.im).toNat * size + (sample_remap_index size z.re).toNat))
        ((size - 1 - (sample_remap_index size z.im).toNat) * size
          + (sample_remap_index size z.re).toNat) := by
  obtain ⟨hx0, hx1⟩ := sample_remap_index_bounds size z.re h1 hw
  obtain ⟨hy0, hy1⟩ := sample_remap_index_bounds size z.im h1 hw
  have hxx : ((sample_remap_index size z.re).toNat : ℤ) = sample_remap_index size z.re :=
    Int.toNat_of_nonneg hx0
  have hyy : ((sample_remap_index size z.im).toNat : ℤ) = sample_remap_index size z.im :=
    Int.toNat_of_nonneg hy0
  have hm : ((size - 1 - (sample_remap_index size z.im).toNat : ℕ) : ℤ)
      = (size : ℤ) - 1 - sample_remap_index size z.im := by omega
  unfold record_point
  rw [if_neg hin]
  dsimp only
  rw [show sample_remap_index size z.im * (size : ℤ) + sample_remap_index size z.re
      = (((sample_remap_index size z.im).toNat * size
          + (sample_remap_index size z.re).toNat : ℕ) : ℤ) by
    push_cast
    rw [hxx, hyy]]
  rw [show ((size : ℤ) - sample_remap_index size z.im - 1) * (size : ℤ)
        + sample_remap_index size z.re
      = (((size - 1 - (sample_remap_index size z.im).toNat) * size
          + (sample_remap_index size z.re).toNat : ℕ) : ℤ) by
    push_cast
    rw [hxx, hm]
    ring]
  rw [Int.toNat_natCast, Int.toNat_natCast]

/-- C4 (amended): a recorded orbit point with both coordinates in `[-2, 2]`
maps to in-range grid indices `(x, y)`; when the grid side is even the cell
`(x, y)` and its vertical mirror `(x, size-1-y)` are distinct and each gains
exactly one count from the visit, every other cell being left unchanged. -/
theorem record_point_mirror (size : ℕ) (counts : List ℕ) (z : QC)
    (hlen : counts.length = size * size) (heven : size % 2 = 0) (hpos : 0 < size)
    (hw : size < 2 ^ 64) (hin : ¬(2 < |z.re| ∨ 2 < |z.im|)) :
    ∃ x y : ℕ, x < size ∧ y < size ∧
      (x : ℤ) = sample_remap_index size z.re ∧ (y : ℤ) = sample_remap_index size z.im ∧
      y * size + x ≠ (size - 1 - y) * size + x ∧
      (record_point size counts z).getD (y * size + x) 0 = counts.getD (y * size + x) 0 + 1 ∧
      (record_point size counts z).getD ((size - 1 - y) * size + x) 0
        = counts.getD ((size - 1 - y) * size + x) 0 + 1 ∧
      ∀ j : ℕ, j ≠ y * size + x → j ≠ (size - 1 - y) * size + x →
        (record_point size counts z).getD j 0 = counts.getD j 0 := by
  have h1 : 1 ≤ size := hpos
  obtain ⟨hx0, hx1⟩ := sample_remap_index_bounds size z.re h1 hw
  obtain ⟨hy0, hy1⟩ := sample_remap_index_bounds size z.im h1 hw
  set xn : ℕ := (sample_remap_index size z.re).toNat with hxn
  set yn : ℕ := (sample_remap_index size z.im).toNat with hyn
  have hxlt : xn < size := by omega
  have hylt : yn < size := by omega
  have hne : yn * size + xn ≠ (size - 1 - yn) * size + xn := by
    intro hcontra
    have := Nat.eq_of_mul_eq_mul_right hpos (Nat.add_right_cancel hcontra)
    omega
  have hb1 : yn * size + xn < counts.length := by
    rw [hlen]
    calc yn * size + xn < yn * size + size := by omega
      _ = (yn + 1) * size := by ring
      _ ≤ size * size := Nat.mul_le_mul_right size (by omega)
  have hb2 : (size - 1 - yn) * size + xn < counts.length := by
    rw [hlen]
    calc (size - 1 - yn) * size + xn < (size - 1 - yn) * size + size := by omega
      _ = (size - 1 - yn + 1) * size := by ring
      _ ≤ size * size := Nat.mul_le_mul_right size (by omega)
  have hrp := record_point_indices size counts z hin h1 hw
  refine ⟨xn, yn, hxlt, hylt, by omega, by omega, hne, ?_, ?_, ?_⟩
  · rw [hrp, incr_at_getD_ne _ _ _ hne, incr_at_getD_self _ _ hb1]
  · rw [hrp, incr_at_getD_self _ _ (by rw [incr_at_length]; exact hb2),
      incr_at_getD_ne _ _ _ (Ne.symm hne)]
  · intro j hj1 hj2
    rw [hrp, incr_at_getD_ne _ _ _ hj2, incr_at_getD_ne _ _ _ hj1]

/-- Witness for C4 (amended): on the 2×2 grid, the orbit point `0` increments
cell `(0, 1)` and its distinct mirror `(0, 0)` by exactly one each. -/
theorem record_point_mirror_witness :
    ∃ x y : ℕ, x < 2 ∧ y < 2 ∧
      (x : ℤ) = sample_remap_index 2 (QC.mk 0 0).re ∧
      (y : ℤ) = sample_remap_index 2 (QC.mk 0 0).im ∧
      y * 2 + x ≠ (2 - 1 - y) * 2 + x ∧
      (record_point 2 (List.replicate 4 0) (QC.mk 0 0)).getD (y * 2 + x) 0
        = (List.replicate 4 0).getD (y * 2 + x) 0 + 1 ∧
      (record_point 2 (List.replicate 4 0) (QC.mk 0 0)).getD ((2 - 1 - y) * 2 + x) 0
        = (List.replicate 4 0).getD ((2 - 1 - y) * 2 + x) 0 + 1 ∧
      ∀ j : ℕ, j ≠ y * 2 + x → j ≠ (2 - 1 - y) * 2 + x →
        (record_point 2 (List.replicate 4 0) (QC.mk 0 0)).getD j 0
          = (List.replicate 4 0).getD j 0 :=
  record_point_mirror 2 (List.replicate 4 0) (QC.mk 0 0) (by norm_num) (by norm_num)
    (by norm_num) (by norm_num) (by norm_num [QC.re, QC.im])

/-- C4 counterexample: with the odd grid side 3, the in-range orbit point
`z = 2` remaps to `(x, y) = (2, 1)`, whose vertical mirror is the same cell;
the single visit increments that cell twice, not by exactly one. -/
theorem record_point_mirror_cex :
    (record_point 3 (List.replicate 9 0) (QC.mk 2 0)).getD 5 0 = 2 ∧
    (record_point 3 (List.replicate 9 0) (QC.mk 2 0)).getD 5 0
      ≠ (List.replicate 9 (0 : ℕ)).getD 5 0 + 1 := by
  have h2 : u64_pred 3 = 2 := by norm_num [u64_pred]
  have ha : sample_remap_index 3 (QC.mk (2 : ℚ) (0 : ℚ)).re = 2 := by
    show sample_remap_index 3 2 = 2
    unfold sample_remap_index
    rw [h2]
    unfold remap
    rw [show ((2 : ℚ) - -2) / (2 - -2) = 1 by norm_num]
    rw [std_clamp_of_mem 1 (by norm_num) (by norm_num)]
    rw [show std_lerp 0 ((2 : ℕ) : ℚ) 1 = 2 by norm_num [std_lerp]]
    unfold trunc_cast
    rw [if_pos (by norm_num : (0 : ℚ) ≤ 2)]
    norm_num
  have hb : sample_remap_index 3 (QC.mk (2 : ℚ) (0 : ℚ)).im = 1 := by
    show sample_remap_index 3 0 = 1
    unfold sample_remap_index
    rw [h2]
    unfold remap
    rw [show ((0 : ℚ) - -2) / (2 - -2) = 1 / 2 by norm_num]
    rw [std_clamp_of_mem (1 / 2) (by norm_num) (by norm_num)]
    rw [show std_lerp 0 ((2 : ℕ) : ℚ) (1 / 2) = 1 by norm_num [std_lerp]]
    unfold trunc_cast
    rw [if_pos (by norm_num : (0 : ℚ) ≤ 1)]
    norm_num
  have hin : ¬((2 : ℚ) < |(QC.mk (2 : ℚ) (0 : ℚ)).re| ∨ (2 : ℚ) < |(QC.mk (2 : ℚ) (0 : ℚ)).im|) := by
    norm_num [QC.re, QC.im]
  have hrp := record_point_indices 3 (List.replicate 9 0) (QC.mk 2 0) hin (by norm_num)
    (by norm_num)
  rw [ha, hb] at hrp
  norm_num at hrp
  rw [hrp]
  constructor
  · decide
  · decide

/-- The raw randomness one loop iteration of `sample` may consume: a unit draw
for the Bernoulli trial, unit draws for the two uniform proposal coordinates,
a raw engine value for the good-point index, and unit draws for the two local
offsets. -/
structure Draw where
  bern : ℚ
  ure : ℚ
  uim : ℚ
  idx : ℕ
  offr : ℚ
  offi : ℚ

/-- `std::bernoulli_distribution(p)`: true iff the unit draw falls below `p`;
with `p = 1` every draw in `[0, 1)` yields true. -/
def bernoulli_outcome (p u : ℚ) : Bool := decide (u < p)

/-- `std::uniform_int_distribution(0UL, good_points.size() - 1)`: the upper
bound is computed in unsigned 64-bit arithmetic, so an empty sequence yields
the full range `[0, 2^64 - 1]` rather than an in-range index. -/
def point_idx (len raw : ℕ) : ℕ := if len = 0 then raw % 2 ^ 64 else raw % len

/-- Proposal generation of `sample` lines 132-141: a uniform draw over
`[-2, 2]²` when the Bernoulli trial succeeds, otherwise a uniform draw in the
square of half-width `radius` around a randomly indexed good point. `none`
models the out-of-bounds vector access `good_points[idx]` when the index
exceeds the sequence. -/
def propose (p_uniform : ℚ) (good_points : List (ℚ × ℚ)) (radius : ℚ) (d : Draw) :
    Option QC :=
  if bernoulli_outcome p_uniform d.bern then
    some ⟨std_lerp (-2) 2 d.ure, std_lerp (-2) 2 d.uim⟩
  else
    match good_points.get? (point_idx good_points.length d.idx) with
    | none => none
    | some pr => some ⟨std_lerp (pr.1 - radius) (pr.1 + radius) d.offr,
                       std_lerp (pr.2 - radius) (pr.2 + radius) d.offi⟩

/-- `BuddhabrotThread::sample` over an explicit randomness stream: starting
from the all-zero histogram of `main`'s thread template, each iteration
proposes a start point and processes its orbit; `none` models an undefined
out-of-bounds access during proposal generation. -/
def buddha_sample (size max_iter : ℕ) (p_uniform : ℚ) (good_points : List (ℚ × ℚ))
    (radius : ℚ) (draws : List Draw) : Option (List ℕ) :=
  draws.foldl
    (fun acc d => acc.bind (fun counts =>
      (propose p_uniform good_points radius d).map (process_sample size max_iter counts)))
    (some (List.replicate (size * size) 0))

/-- With sampling-mix probability 1 every proposal is the uniform one: the
good-point sequence is never consulted. -/
theorem propose_uniform_of_p_one (good_points : List (ℚ × ℚ)) (radius : ℚ) (d : Draw)
    (hu : d.bern < 1) :
    propose 1 good_points radius d = some ⟨std_lerp (-2) 2 d.ure, std_lerp (-2) 2 d.uim⟩ := by
  unfold propose bernoulli_outcome
  rw [decide_eq_true hu, if_pos rfl]

/-- C2 (amended): with an empty good-point sequence and sampling-mix
probability 1 (unit Bernoulli draws lying in `[0, 1)`), `sample` makes no
out-of-range index selection and completes, producing a histogram of the full
`size*size` dimension. -/
theorem buddha_sample_p_one_total (size max_iter : ℕ) (good_points : List (ℚ × ℚ))
    (radius : ℚ) (draws : List Draw) (hgp : good_points = [])
    (hb : ∀ d ∈ draws, 0 ≤ d.bern ∧ d.bern < 1) :
    ∃ h : List ℕ, buddha_sample size max_iter 1 good_points radius draws = some h ∧
      h.length = size * size := by
  subst hgp
  unfold buddha_sample
  suffices hgen : ∀ counts : List ℕ,
      ∃ h : List ℕ,
        draws.foldl
          (fun acc d => acc.bind (fun counts =>
            (propose 1 [] radius d).map (process_sample size max_iter counts)))
          (some counts) = some h ∧ h.length = counts.length by
    obtain ⟨h, hh, hlen⟩ := hgen (List.replicate (size * size) 0)
    exact ⟨h, hh, by rw [hlen, List.length_replicate]⟩
  induction draws with
  | nil => exact fun counts => ⟨counts, rfl, rfl⟩
  | cons d rest ih =>
    intro counts
    rw [List.foldl_cons]
    rw [propose_uniform_of_p_one [] radius d (hb d (List.mem_cons_self d rest)).2]
    obtain ⟨h, hh, hlen⟩ :=
      (ih (fun e he => hb e (List.mem_cons_of_mem d he)))
        (process_sample size max_iter counts ⟨std_lerp (-2) 2 d.ure, std_lerp (-2) 2 d.uim⟩)
    refine ⟨h, ?_, ?_⟩
    · rw [← hh]
      rfl
    · rw [hlen, process_sample_length]

/-- Witness for C2 (amended): one pure-uniform draw on an empty good-point
sequence completes with a 1×1 histogram. -/
theorem buddha_sample_p_one_total_witness :
    ∃ h : List ℕ, buddha_sample 1 0 1 [] 1 [⟨0, 0, 0, 0, 0, 0⟩] = some h ∧
      h.length = 1 * 1 := by
  refine buddha_sample_p_one_total 1 0 [] 1 [⟨0, 0, 0, 0, 0, 0⟩] rfl ?_
  intro d hd
  rw [List.mem_singleton] at hd
  subst hd
  norm_num

/-- C2 counterexample to the general clause: with an empty good-point sequence
and sampling-mix probability 0, the very first edge-biased proposal selects an
out-of-range index into the empty sequence (modelled as `none`): an undefined
out-of-bounds access. -/
theorem buddha_sample_empty_oob_cex :
    buddha_sample 1 1 0 [] 1 [⟨0, 0, 0, 0, 0, 0⟩] = none := by
  have hp : propose 0 [] 1 (⟨0, 0, 0, 0, 0, 0⟩ : Draw) = none := by
    unfold propose bernoulli_outcome
    rw [decide_eq_false (by norm_num : ¬((0 : ℚ) < 0))]
    rfl
  unfold buddha_sample
  rw [List.foldl_cons, List.foldl_nil]
  rw [Option.some_bind, hp]
  rfl

/-- The per-worker state `merge_results` reads: the grid side and the privately
accumulated histogram of a `BuddhabrotThread`. -/
structure BThread where
  size : ℕ
  counts : List ℕ

/-- `merge_results`: start from the all-zero histogram sized from the first
thread, then fold every thread's histogram in with an element-wise sum
(`std::transform` over the accumulator's length). -/
def merge_results : List BThread → List ℕ
  | [] => []
  | t :: rest =>
    (t :: rest).foldl (fun acc th => List.zipWith (fun cur res => cur + res) acc th.counts)
      (List.replicate (t.size * t.size) 0)

theorem zipWith_add_length (acc counts : List ℕ) (h : counts.length = acc.length) :
    (List.zipWith (fun cur res => cur + res) acc counts).length = acc.length := by
  rw [List.length_zipWith, h, Nat.min_self]

theorem zipWith_add_getD (acc counts : List ℕ) (j : ℕ) (hj : j < acc.length)
    (h : counts.length = acc.length) :
    (List.zipWith (fun cur res => cur + res) acc counts).getD j 0
      = acc.getD j 0 + counts.getD j 0 := by
  have hj2 : j < counts.length := by omega
  simp [List.getD, List.getElem?_zipWith, List.getElem?_eq_getElem, hj, hj2]

/-- The merge fold computes, cell by cell, the accumulator plus the sum of the
folded histograms. -/
theorem merge_fold_getD (ts : List BThread) (acc : List ℕ) (L : ℕ) (hacc : acc.length = L)
    (hlen : ∀ t ∈ ts, t.counts.length = L) :
    (ts.foldl (fun a th => List.zipWith (fun cur res => cur + res) a th.counts) acc).length = L ∧
    ∀ j < L, (ts.foldl (fun a th => List.zipWith (fun cur res => cur + res) a th.counts)
        acc).getD j 0
      = acc.getD j 0 + (ts.map (fun t => t.counts.getD j 0)).sum := by
  induction ts generalizing acc with
  | nil => exact ⟨hacc, fun j _ => by simp⟩
  | cons t rest ih =>
    have ht : t.counts.length = acc.length := by
      rw [hacc]
      exact hlen t (List.mem_cons_self t rest)
    have hstep : (List.zipWith (fun cur res => cur + res) acc t.counts).length = L := by
      rw [zipWith_add_length acc t.counts ht, hacc]
    obtain ⟨ihlen, ihval⟩ := ih (List.zipWith (fun cur res => cur + res) acc t.counts) hstep
      (fun e he => hlen e (List.mem_cons_of_mem t he))
    refine ⟨by rw [List.foldl_cons]; exact ihlen, fun j hj => ?_⟩
    rw [List.foldl_cons, ihval j hj, zipWith_add_getD acc t.counts j (by omega) ht,
      List.map_cons, List.sum_cons]
    ring

theorem replicate_zero_getD (n j : ℕ) : (List.replicate n (0 : ℕ)).getD j 0 = 0 := by
  simp only [List.getD, List.get?_eq_getElem?, List.getElem?_replicate]
  split <;> rfl

theorem getD_zero_eq_get (l : List ℕ) (j : ℕ) (h : j < l.length) :
    l.getD j 0 = l.get ⟨j, h⟩ := by
  simp [List.getD, List.getElem?_eq_getElem h]

/-- C6: for nonempty worker lists of identical dimensions, `merge_results`
computes the element-wise sum of all histograms; merging any permutation of
the workers yields the identical histogram, and all-zero histograms merge to
the all-zero histogram. -/
theorem merge_results_spec (S : ℕ) :
    (∀ ts : List BThread, ts ≠ [] →
        (∀ t ∈ ts, t.size = S ∧ t.counts.length = S * S) →
        (merge_results ts).length = S * S ∧
        ∀ j < S * S, (merge_results ts).getD j 0
          = (ts.map (fun t => t.counts.getD j 0)).sum) ∧
    (∀ ts1 ts2 : List BThread, ts1.Perm ts2 → ts1 ≠ [] →
        (∀ t ∈ ts1, t.size = S ∧ t.counts.length = S * S) →
        merge_results ts1 = merge_results ts2) ∧
    (∀ ts : List BThread, ts ≠ [] →
        (∀ t ∈ ts, t.size = S ∧ t.counts = List.replicate (S * S) 0) →
        merge_results ts = List.replicate (S * S) 0) := by
  have hA : ∀ ts : List BThread, ts ≠ [] →
      (∀ t ∈ ts, t.size = S ∧ t.counts.length = S * S) →
      (merge_results ts).length = S * S ∧
      ∀ j < S * S, (merge_results ts).getD j 0
        = (ts.map (fun t => t.counts.getD j 0)).sum := by
    intro ts hne hts
    cases ts with
    | nil => exact absurd rfl hne
    | cons t rest =>
      have heq : merge_results (t :: rest)
          = (t :: rest).foldl (fun acc th => List.zipWith (fun cur res => cur + res) acc th.counts)
            (List.replicate (t.size * t.size) 0) := rfl
      rw [heq, (hts t (List.mem_cons_self t rest)).1]
      obtain ⟨hl, hv⟩ := merge_fold_getD (t :: rest) (List.replicate (S * S) 0) (S * S)
        (List.length_replicate _ _) (fun e he => (hts e he).2)
      refine ⟨hl, fun j hj => ?_⟩
      rw [hv j hj, replicate_zero_getD, Nat.zero_add]
  refine ⟨hA, ?_, ?_⟩
  · intro ts1 ts2 hperm hne hts
    have hne2 : ts2 ≠ [] := by
      intro h
      subst h
      exact hne hperm.eq_nil
    have hts2 : ∀ t ∈ ts2, t.size = S ∧ t.counts.length = S * S :=
      fun t ht => hts t (hperm.mem_iff.mpr ht)
    obtain ⟨hl1, hv1⟩ := hA ts1 hne hts
    obtain ⟨hl2, hv2⟩ := hA ts2 hne2 hts2
    apply List.ext_get (by rw [hl1, hl2])
    intro n h1 h2
    have hn : n < S * S := by rw [hl1] at h1; exact h1
    rw [← getD_zero_eq_get _ _ h1, ← getD_zero_eq_get _ _ h2, hv1 n hn, hv2 n hn]
    exact (hperm.map _).sum_eq
  · intro ts hne hts
    have hts2 : ∀ t ∈ ts, t.size = S ∧ t.counts.length = S * S :=
      fun t ht => ⟨(hts t ht).1, by rw [(hts t ht).2, List.length_replicate]⟩
    obtain ⟨hl, hv⟩ := hA ts hne hts2
    apply List.ext_get (by rw [hl, List.length_replicate])
    intro n h1 h2
    have hn : n < S * S := by rw [hl] at h1; exact h1
    rw [← getD_zero_eq_get _ _ h1, ← getD_zero_eq_get _ _ h2, hv n hn, replicate_zero_getD]
    apply List.sum_eq_zero
    intro x hx
    rw [List.mem_map] at hx
    obtain ⟨t, ht, rfl⟩ := hx
    rw [(hts t ht).2, replicate_zero_getD]

/-- Witness for C6 on two 1×1 workers holding `[3]` and `[4]`. -/
theorem merge_results_spec_witness :
    merge_results [⟨1, [3]⟩, ⟨1, [4]⟩] = merge_results [⟨1, [4]⟩, ⟨1, [3]⟩] ∧
    (merge_results [⟨1, [3]⟩, ⟨1, [4]⟩]).getD 0 0
      = ([⟨1, [3]⟩, ⟨1, [4]⟩].map (fun t : BThread => t.counts.getD 0 0)).sum := by
  have h := merge_results_spec 1
  constructor
  · exact h.2.1 [⟨1, [3]⟩, ⟨1, [4]⟩] [⟨1, [4]⟩, ⟨1, [3]⟩] (List.Perm.swap _ _ _) (by simp)
      (by intro t ht; fin_cases ht <;> simp)
  · exact (h.1 [⟨1, [3]⟩, ⟨1, [4]⟩] (by simp) (by intro t ht; fin_cases ht <;> simp)).2 0
      (by norm_num)

/-- One multiplicative-congruential step of libstdc++'s
`std::default_random_engine` (`minstd_rand0`). -/
def lcg_next (s : ℕ) : ℕ := (16807 * s) % 2147483647

/-- Engine state after `k` draws from the given seed. -/
def engine_at (seed k : ℕ) : ℕ := lcg_next^[k] seed

/-- The seed of a default-constructed engine (`std::default_random_engine eng;`). -/
def default_engine_seed : ℕ := 1

/-- One draw of `std::uniform_real_distribution offset(-0.25f * delta,
0.25f * delta)` realised from a raw engine value. -/
def offset_of (delta : ℚ) (s : ℕ) : ℚ :=
  std_lerp (-(delta / 4)) (delta / 4) (((s % 2147483647 : ℕ) : ℚ) / 2147483647)

/-- The jittered complex sample point of `binary_mandelbrot` for flat cell
`i = y * size + x`: the lattice point `(lerp(-2,2,x/S), lerp(-2,2,y/S))` plus
the two per-cell jitter draws. -/
def jittered_c (size seed i : ℕ) : QC :=
  ⟨std_lerp (-2) 2 (((i % size : ℕ) : ℚ) / (size : ℚ))
      + offset_of (4 / (size : ℚ)) (engine_at seed (2 * i)),
   std_lerp (-2) 2 (((i / size : ℕ) : ℚ) / (size : ℚ))
      + offset_of (4 / (size : ℚ)) (engine_at seed (2 * i + 1))⟩

/-- The escape loop of `binary_mandelbrot` lines 34-36: iterate `z ← z² + c`
while the iteration count is below `max_iter` and `|z|² < 4`. -/
def mandel_loop (c : QC) : ℕ → QC → QC
  | 0, z => z
  | n + 1, z => if z.normSq < 4 then mandel_loop c n ((z.mul z).add c) else z

/-- The mathematical orbit: `z_0 = 0`, `z_{i+1} = z_i² + c`. -/
def mandel_iter (c : QC) : ℕ → QC
  | 0 => QC.zero
  | n + 1 => ((mandel_iter c n).mul (mandel_iter c n)).add c

/-- `binary_mandelbrot` for a given engine seed: cell `i` stores true iff the
escape loop exits with `|z|² < 4` (the point did not escape). -/
def binary_mandelbrot_core (size max_iter seed : ℕ) : List Bool :=
  (List.range (size * size)).map (fun i =>
    decide ((mandel_loop (jittered_c size seed i) max_iter QC.zero).normSq < 4))

/-- `binary_mandelbrot` as written: a `std::random_device rd` is constructed
(its entropy is the `rd_entropy` argument) but the jitter engine is
default-constructed and never seeded from it. -/
def binary_mandelbrot (size max_iter rd_entropy : ℕ) : List Bool :=
  binary_mandelbrot_core size max_iter default_engine_seed

/-- The escape loop exits with `|z|² < 4` iff every iterate up to the cap
keeps `|z|² < 4`. -/
theorem mandel_loop_lt_iff (c : QC) : ∀ (n : ℕ) (z : QC),
    (mandel_loop c n z).normSq < 4 ↔
      ∀ i ≤ n, (((fun w => (w.mul w).add c)^[i]) z).normSq < 4 := by
  intro n
  induction n with
  | zero =>
    intro z
    constructor
    · intro h i hi
      have h0 : i = 0 := Nat.le_zero.mp hi
      subst h0
      simpa using h
    · intro h
      simpa using h 0 (Nat.le_refl 0)
  | succ n ih =>
    intro z
    show (if z.normSq < 4 then mandel_loop c n ((z.mul z).add c) else z).normSq < 4 ↔ _
    by_cases h : z.normSq < 4
    · rw [if_pos h, ih ((z.mul z).add c)]
      constructor
      · intro hall i hi
        cases i with
        | zero => simpa using h
        | succ j =>
          rw [Function.iterate_succ_apply]
          exact hall j (by omega)
      · intro hall i hi
        rw [← Function.iterate_succ_apply]
        exact hall (i + 1) (by omega)
    · rw [if_neg h]
      constructor
      · intro hz
        exact absurd hz h
      · intro hall
        exact absurd (by simpa using hall 0 (Nat.zero_le _)) h

theorem mandel_iter_eq_iterate (c : QC) (i : ℕ) :
    mandel_iter c i = ((fun w => (w.mul w).add c)^[i]) QC.zero := by
  induction i with
  | zero => rfl
  | succ n ih =>
    show ((mandel_iter c n).mul (mandel_iter c n)).add c = _
    rw [Function.iterate_succ_apply', ← ih]

/-- C7: cell `(x, y)` of the rasterized bitmap stores true iff the jittered
point's orbit keeps `|z|² < 4` through all of the first `max_iter` iterates —
exactly the logical negation of escape. -/
theorem binary_mandelbrot_cell_iff (size max_iter seed x y : ℕ)
    (hx : x < size) (hy : y < size) :
    ((binary_mandelbrot_core size max_iter seed).getD (y * size + x) false = true ↔
      ∀ i ≤ max_iter, (mandel_iter (jittered_c size seed (y * size + x)) i).normSq < 4) := by
  have hidx : y * size + x < size * size := by
    calc y * size + x < y * size + size := by omega
      _ = (y + 1) * size := by ring
      _ ≤ size * size := Nat.mul_le_mul_right size (by omega)
  have hget : (binary_mandelbrot_core size max_iter seed).getD (y * size + x) false
      = decide ((mandel_loop (jittered_c size seed (y * size + x)) max_iter QC.zero).normSq
          < 4) := by
    unfold binary_mandelbrot_core
    simp [List.getD, List.get?_eq_getElem?, List.getElem?_map, List.getElem?_range, hidx]
  rw [hget, decide_eq_true_eq, mandel_loop_lt_iff]
  simp only [mandel_iter_eq_iterate]

/-- Witness for C7 at the single cell of a 1×1 grid with iteration cap 0. -/
theorem binary_mandelbrot_cell_iff_witness :
    ((binary_mandelbrot_core 1 0 1).getD (0 * 1 + 0) false = true ↔
      ∀ i ≤ 0, (mandel_iter (jittered_c 1 1 (0 * 1 + 0)) i).normSq < 4) :=
  binary_mandelbrot_cell_iff 1 0 1 0 0 (by norm_num) (by norm_num)

/-- C10: the rasterizer never consumes the random device's entropy — its
jitter engine is default-constructed — so any two invocations with the same
side length and iteration cap produce identical bitmaps. -/
theorem binary_mandelbrot_deterministic (size max_iter e1 e2 : ℕ) :
    binary_mandelbrot size max_iter e1 = binary_mandelbrot size max_iter e2 := rfl

/-- The values written to `progress` inside the sampling loop (lines 127-130):
`k + 1` for every loop index `k < n` with `k % 1000 == 0`. -/
def loop_writes (n : ℕ) : List ℕ :=
  ((List.range n).filter (fun k => decide (k % 1000 = 0))).map (fun k => k + 1)

/-- The full sequence of values written to the worker's progress counter by
one execution of `sample(n)`: the coarse-stride loop writes followed by the
final `progress = n_points` write (line 168). -/
def progress_writes (n : ℕ) : List ℕ := loop_writes n ++ [n]

theorem loop_writes_length (n : ℕ) : (loop_writes n).length = (n + 999) / 1000 := by
  unfold loop_writes
  rw [List.length_map, ← List.countP_eq_length_filter]
  induction n with
  | zero => rfl
  | succ m ih =>
    rw [List.range_succ, List.countP_append, ih]
    have hc : List.countP (fun k => decide (k % 1000 = 0)) [m]
        = if m % 1000 = 0 then 1 else 0 := by
      simp [List.countP_cons]
    rw [hc]
    split_ifs with h <;> omega

/-- C8: over one execution of `sample(n)` the written progress values are
monotonically non-decreasing, the writes inside the loop happen only every
1000th sample (`⌈n/1000⌉` of them, at indices divisible by 1000), and the
final written value is `n`. -/
theorem progress_writes_spec (n : ℕ) :
    (progress_writes n).Chain' (· ≤ ·) ∧
    (progress_writes n).getLast? = some n ∧
    (loop_writes n).length = (n + 999) / 1000 ∧
    ∀ w ∈ loop_writes n, ∃ k, k < n ∧ k % 1000 = 0 ∧ w = k + 1 := by
  have hmem : ∀ w ∈ loop_writes n, ∃ k, k < n ∧ k % 1000 = 0 ∧ w = k + 1 := by
    intro w hw
    unfold loop_writes at hw
    rw [List.mem_map] at hw
    obtain ⟨k, hk, rfl⟩ := hw
    rw [List.mem_filter] at hk
    exact ⟨k, List.mem_range.mp hk.1, of_decide_eq_true hk.2, rfl⟩
  refine ⟨?_, List.getLast?_concat _, loop_writes_length n, hmem⟩
  apply List.Pairwise.chain'
  unfold progress_writes
  rw [List.pairwise_append]
  refine ⟨?_, List.pairwise_singleton _ _, ?_⟩
  · unfold loop_writes
    refine List.Pairwise.map _ (fun a b hab => ?_) (List.Pairwise.filter _
      (List.pairwise_lt_range n))
    omega
  · intro a ha b hb
    rw [List.mem_singleton] at hb
    subst hb
    obtain ⟨k, hk, _, rfl⟩ := hmem a ha
    omega

/-- The catalog of colormap names recognised by `Colormap::by_name`. -/
def cmap_catalog : List String := ["viridis", "inferno", "plasma", "magma", "rocket", "mako"]

/-- The identity of a colormap table from `cmap_data.h` (the table data itself
is outside the verified core; only which table is selected matters here). -/
inductive CmapName
  | viridis
  | inferno
  | plasma
  | magma
  | rocket
  | mako
deriving DecidableEq

/-- `Colormap::by_name`: the chain of name comparisons of `cmap.h` lines
50-67; `none` models the `std::invalid_argument` throw on the final line. -/
def Colormap.by_name (name : String) : Option CmapName :=
  if name = "viridis" then some CmapName.viridis
  else if name = "inferno" then some CmapName.inferno
  else if name = "plasma" then some CmapName.plasma
  else if name = "magma" then some CmapName.magma
  else if name = "rocket" then some CmapName.rocket
  else if name = "mako" then some CmapName.mako
  else none

/-- C9: colormap lookup succeeds exactly on the six catalog names, and on
every other name it takes the invalid-argument path and returns no colormap
value. -/
theorem by_name_catalog (name : String) :
    ((∃ c, Colormap.by_name name = some c) ↔ name ∈ cmap_catalog) ∧
    (name ∉ cmap_catalog → Colormap.by_name name = none) := by
  unfold Colormap.by_name
  split_ifs with h1 h2 h3 h4 h5 h6 <;> simp_all [cmap_catalog]

/-- Witness for C8 at `n = 2001`: three loop writes and a final write of 2001. -/
theorem progress_writes_spec_witness :
    (progress_writes 2001).Chain' (· ≤ ·) ∧
    (progress_writes 2001).getLast? = some 2001 ∧
    (loop_writes 2001).length = (2001 + 999) / 1000 ∧
    ∀ w ∈ loop_writes 2001, ∃ k, k < 2001 ∧ k % 1000 = 0 ∧ w = k + 1 :=
  progress_writes_spec 2001

/-- Witness for C9 at the catalog name `"mako"` used by `main`. -/
theorem by_name_catalog_witness :
    ((∃ c, Colormap.by_name "mako" = some c) ↔ "mako" ∈ cmap_catalog) ∧
    ("mako" ∉ cmap_catalog → Colormap.by_name "mako" = none) :=
  by_name_catalog "mako"
